import Mathlib

/-!
# interlz3: Apple II disk image assembly

A shallow embedding of `interlz3.c` and theorems about it.

Modelling conventions.
* A byte is a `Fin 256`.
* An input stream (`FILE*` opened with "rb") is the list of bytes not yet
  read together with its end-of-file indicator.  Reads never fail with an
  I/O error.
* The output stream (`FILE*` opened with "wb") is the list of bytes written
  so far.  Writes never fail.
* `unsigned int` is 32 bits wide: every update of such a variable is
  reduced modulo `2^32`.
* `while (!feof(f))` loops carry a fuel argument and return `none` when the
  fuel runs out before the loop condition becomes false.
-/

namespace Interlz3

/-! ## Streams -/

abbrev Byte := Fin 256

/-- Input stream: the unread bytes and the end-of-file indicator. -/
structure RFile where
  data : List Byte
  eof : Bool
deriving DecidableEq

/-- A freshly opened input file. -/
def fopen_rb (contents : List Byte) : RFile := ⟨contents, false⟩

/-- The value of `feof(f)`. -/
def feof (f : RFile) : Bool := f.eof

/-- The constant `EOF`. -/
def EOF : Int := -1

/-- Model of `fgetc(f)`: the next byte as a non-negative `int`, or `EOF` with the
end-of-file indicator set when no byte is left. -/
def fgetc (f : RFile) : Int × RFile :=
  match f.data with
  | [] => (EOF, ⟨[], true⟩)
  | b :: rest => ((b.val : Int), ⟨rest, f.eof⟩)

/-- Conversion of an `int` to `unsigned char`. -/
def toUChar (x : Int) : Byte := ⟨(x % 256).toNat % 256, Nat.mod_lt _ (by decide)⟩

/-- Model of `fputc(ch, tgt)`. -/
def fputc (ch : Byte) (tgt : List Byte) : List Byte := tgt ++ [ch]

/-- Model of `fread(ptr, 1, cnt, f)`: the bytes delivered (at most `cnt`) and the
stream afterwards; the end-of-file indicator is set when fewer than `cnt`
bytes were available. -/
def fread (cnt : Nat) (f : RFile) : List Byte × RFile :=
  let got := f.data.take cnt
  (got, ⟨f.data.drop cnt, f.eof || decide (got.length < cnt)⟩)

/-! ## Constants -/

def STUBSIZE : Nat := 12288

/-- The literal `143360` of `interleave`. -/
def IMAGESIZE : Nat := 143360

/-- Wrap to `unsigned int`. -/
def u32 (x : Nat) : Nat := x % 2 ^ 32

/-! ## validate_zip -/

/-- Model of `validate_zip`: `st_size` is the size reported by `stat`. -/
def validate_zip (st_size : Nat) : Bool :=
  if st_size ≠ STUBSIZE then false else true

/-! ## copy_zip -/

/-- The `while (!feof(zip))` loop of `copy_zip`, on the state `(ch, c, zip, tgt)`. -/
def copy_zip_loop : Nat → Byte → Nat → RFile → List Byte → Option (Nat × RFile × List Byte)
  | fuel, ch, c, zip, tgt =>
    if feof zip then some (c, zip, tgt)
    else match fuel with
      | 0 => none
      | fuel + 1 =>
        let c1 := u32 (c + 1)
        let tgt1 := fputc ch tgt
        let r := fgetc zip
        copy_zip_loop fuel (toUChar r.1) c1 r.2 tgt1

/-- Model of `copy_zip(zip, tgt)`: the returned count with both streams
afterwards.  One loop iteration per byte, so `length + 1` is enough fuel.  The
message printed when the count is not `STUBSIZE` is not part of the model. -/
def copy_zip (zip : RFile) (tgt : List Byte) : Option (Nat × RFile × List Byte) :=
  let r := fgetc zip
  copy_zip_loop (zip.data.length + 1) (toUChar r.1) 0 r.2 tgt

/-! ## interleave -/

/-- The table `sect[16]`. -/
def sect : List Nat :=
  [0x0, 0xD, 0xB, 0x9, 0x7, 0x5, 0x3, 0x1, 0xE, 0xC, 0xA, 0x8, 0x6, 0x4, 0x2, 0xF]

/-- The array `uint8_t buf[0x10][0x100]`, as `buf row col`. -/
abbrev Buf := Nat → Nat → Byte

/-- Effect on `buf` of `fread(buf[row], 1, 0x100, src)` delivering `got`:
the bytes land at the start of row `row`. -/
def store (buf : Buf) (row : Nat) (got : List Byte) : Buf :=
  fun r c => if r = row then (got[c]?).getD (buf r c) else buf r c

/-- Model of `fwrite(buf, 1, N, tgt)`: the first `N` bytes of the array in
memory order (row-major) are appended to the target. -/
def fwrite (buf : Buf) (N : Nat) (tgt : List Byte) : List Byte :=
  tgt ++ (List.range N).map (fun j => buf (j / 0x100) (j % 0x100))

/-- The loop `for (i = 0; i < 16 && n == 0x100; i++)` on the state
`(i, n, N, buf, src)`; the first argument bounds the remaining iterations
(it is `16 - i`). -/
def for_loop : Nat → Nat → Nat → Nat → Buf → RFile → Nat × Nat × Buf × RFile
  | 0, _, n, N, buf, src => (n, N, buf, src)
  | k + 1, i, n, N, buf, src =>
    if i < 16 ∧ n = 0x100 then
      let r := fread 0x100 src
      let buf1 := store buf (sect.getD i 0) r.1
      let n1 := u32 r.1.length
      let N1 := u32 (N + n1)
      for_loop k (i + 1) n1 N1 buf1 r.2
    else (n, N, buf, src)

/-- The loop `while (!feof(src))` of `interleave` on the state
`(T, buf, src, tgt)`.  `fwrite` returns `N`, the number of bytes it was asked to
write, so `T += fwrite(..)` adds `N`. -/
def interleave_loop : Nat → Nat → Buf → RFile → List Byte → Option (Nat × Buf × RFile × List Byte)
  | fuel, T, buf, src, tgt =>
    if feof src then some (T, buf, src, tgt)
    else match fuel with
      | 0 => none
      | fuel + 1 =>
        let g := for_loop 16 0 0x100 0 buf src
        let N := g.2.1
        let tgt1 := fwrite g.2.2.1 N tgt
        interleave_loop fuel (u32 (T + N)) g.2.2.1 g.2.2.2 tgt1

/-- The padding count `n = 143360 - STUBSIZE - T` in `unsigned int`. -/
def pad_count (T : Nat) : Nat :=
  (((IMAGESIZE : Int) - (STUBSIZE : Int) - (T : Int)) % (2 ^ 32 : Int)).toNat

/-- The loop `for (i = 0; i < n; i++) fputc(0, tgt)`. -/
def pad_loop : Nat → List Byte → List Byte
  | 0, tgt => tgt
  | k + 1, tgt => pad_loop k (fputc 0 tgt)

/-- Model of `interleave(src, tgt)`; `buf0` is the initial (indeterminate)
content of the local array `buf`.  Returns `rc` with both streams afterwards.
Every iteration of the outer loop consumes input or sets the end-of-file
indicator, so `length + 1` is enough fuel. -/
def interleave (src : RFile) (tgt : List Byte) (buf0 : Buf) : Option (Bool × RFile × List Byte) :=
  match interleave_loop (src.data.length + 1) 0 buf0 src tgt with
  | none => none
  | some (T, _, src1, tgt1) =>
    let rc := true
    let n := pad_count T
    some (rc, src1, pad_loop n tgt1)

/-! ## main -/

/-- How a run ends: the exit status and the content of the target file
(`none` when the target was never opened). -/
structure Outcome where
  status : Nat
  target : Option (List Byte)
deriving DecidableEq

/-- Model of `main` for a command line that passes `check_args` and three
files that can be opened; console output is not part of the model.  `st_size` is the stub size reported by `stat`,
`stub` and `story` are the contents of the stub and story files, `buf0` the
initial content of the array of `interleave`.  The result is `none` when a
loop runs out of fuel. -/
def main (st_size : Nat) (stub story : List Byte) (buf0 : Buf) : Option Outcome :=
  if !validate_zip st_size then some ⟨1, none⟩
  else
    let zip := fopen_rb stub
    let src := fopen_rb story
    let tgt : List Byte := []
    match copy_zip zip tgt with
    | none => none
    | some (c, _, tgt1) =>
      if c ≠ STUBSIZE then some ⟨1, some tgt1⟩
      else match interleave src tgt1 buf0 with
        | none => none
        | some (rc, _, tgt2) =>
          if !rc then some ⟨1, some tgt2⟩
          else some ⟨0, some tgt2⟩

/-! ## Proof-side descriptions of one group -/

/-- The table `Pinv` of the round-trip law, the inverse of `sect`: `Pinv[r]` is the
index of the chunk that is read into row `r`. -/
def Pinv : List Nat := [0, 7, 14, 6, 13, 5, 12, 4, 11, 3, 10, 2, 9, 1, 8, 15]

/-- Content of the array after the chunks number `i, i+1, ..` of a group were read
from `data` (as long as chunks are complete) on top of the previous content `buf`. -/
def fill (i : Nat) (data : List Byte) (buf : Buf) : Buf :=
  fun r c =>
    if r < 16 ∧ c < 256 ∧ i ≤ Pinv.getD r 0 then
      (data[(Pinv.getD r 0 - i) * 256 + c]?).getD (buf r c)
    else buf r c

/-- Bytes written by one pass of the outer loop over the unread input `data`,
when the array held `buf` before. -/
def group_out (buf : Buf) (data : List Byte) : List Byte :=
  (List.range (min 4096 data.length)).map (fun j => fill 0 data buf (j / 256) (j % 256))

/-- Bytes written by the first `k` passes of the outer loop. -/
def payload_rec : Nat → Buf → List Byte → List Byte
  | 0, _, _ => []
  | k + 1, buf, data => group_out buf data ++ payload_rec k (fill 0 data buf) (data.drop 4096)

/-- Content of the array after the first `k` passes of the outer loop. -/
def buf_rec : Nat → Buf → List Byte → Buf
  | 0, buf, _ => buf
  | k + 1, buf, data => buf_rec k (fill 0 data buf) (data.drop 4096)

/-! ## Tables and operations named by the specification -/

/-- The permutation table `P[0..15]` as the specification writes it. -/
def P : List Nat := [0, 13, 11, 9, 7, 5, 3, 1, 14, 12, 10, 8, 6, 4, 2, 15]

/-- The slot whose bytes the inverse permutation moves to chunk position `i`:
the slot `s` with `Pinv[s] = i`. -/
def slot_for (i : Nat) : Nat :=
  ((List.range 16).find? (fun s => Pinv.getD s 0 = i)).getD 0

/-- The inverse permutation of the round-trip law, written from the words of the
specification: within each 4096-byte group the 256 bytes of slot `s` move to chunk
position `Pinv[s]`, so the byte at chunk position `i`, column `c` of the result is
the byte at slot `slot_for i`, column `c` of the same group of `pay`. -/
def inverse_permute (pay : List Byte) : List Byte :=
  (List.range pay.length).map
    (fun j => pay.getD (j / 4096 * 4096 + slot_for (j % 4096 / 256) * 256 + j % 256) 0)

/-- Story file of scenario A: 4096 zero bytes followed by 4096 bytes of value `0xFF`. -/
def scenarioA : List Byte := List.replicate 4096 0 ++ List.replicate 4096 255

/-- Story file of the stale-buffer example: 4096 bytes of `0xFF` followed by 300 zero bytes. -/
def staleExample : List Byte := List.replicate 4096 255 ++ List.replicate 300 0

/-! ## Observations on the outer loop of interleave -/

/-- One pass of the body of `while (!feof(src))` in `interleave`, on the state
`(T, buf, src, tgt)`: the inner `for` loop, then `T += fwrite(buf, 1, N, tgt)`. -/
def interleave_body (s : Nat × Buf × RFile × List Byte) : Nat × Buf × RFile × List Byte :=
  let g := for_loop 16 0 0x100 0 s.2.1 s.2.2.1
  let N := g.2.1
  (u32 (s.1 + N), g.2.2.1, g.2.2.2, fwrite g.2.2.1 N s.2.2.2)

/-- The payload: what the outer loop of `interleave` writes for the story file
`story` when the target is empty before and the array holds `buf0`. -/
def payload_of (story : List Byte) (buf0 : Buf) : Option (List Byte) :=
  match interleave_loop (story.length + 1) 0 buf0 (fopen_rb story) [] with
  | none => none
  | some r => some r.2.2.2

/-! ## Lemmas on the embedding -/

theorem u32_add_u32 (a b : Nat) : u32 (u32 a + b) = u32 (a + b) := by
  unfold u32; omega

theorem toUChar_byte (b : Byte) : toUChar (b.val : Int) = b := by
  apply Fin.ext
  have h := b.isLt
  simp only [toUChar]
  omega

theorem copy_zip_loop_run : ∀ (data : List Byte) (fuel : Nat) (ch : Byte) (c : Nat) (tgt : List Byte),
    data.length + 1 ≤ fuel →
    copy_zip_loop fuel ch c ⟨data, false⟩ tgt
      = some (u32 (c + data.length + 1), ⟨[], true⟩, tgt ++ ch :: data) := by
  intro data
  induction data with
  | nil =>
    intro fuel ch c tgt hf
    obtain ⟨k, rfl⟩ : ∃ k, fuel = k + 1 := ⟨fuel - 1, by simp at hf; omega⟩
    unfold copy_zip_loop
    simp [feof, fgetc, fputc]
    unfold copy_zip_loop
    simp [feof]
  | cons b rest ih =>
    intro fuel ch c tgt hf
    obtain ⟨k, rfl⟩ : ∃ k, fuel = k + 1 := ⟨fuel - 1, by simp at hf; omega⟩
    unfold copy_zip_loop
    simp only [feof, fgetc, fputc, Bool.false_eq_true, if_false]
    rw [toUChar_byte, ih k b _ _ (by simp at hf ⊢; omega)]
    have e : u32 (u32 (c + 1) + rest.length + 1) = u32 (c + (b :: rest).length + 1) := by
      simp only [u32, List.length_cons]; omega
    rw [e]; simp

theorem copy_zip_run (stub tgt : List Byte) :
    copy_zip (fopen_rb stub) tgt = some (u32 stub.length, ⟨[], true⟩, tgt ++ stub) := by
  cases stub with
  | nil =>
    unfold copy_zip copy_zip_loop
    simp [fopen_rb, feof, fgetc, u32]
  | cons b rest =>
    unfold copy_zip
    simp only [fopen_rb, fgetc]
    rw [toUChar_byte, copy_zip_loop_run rest _ b 0 tgt (by simp)]
    simp

theorem u32_of_lt {x : Nat} (h : x < 2 ^ 32) : u32 x = x := Nat.mod_eq_of_lt h

theorem sect_lt : ∀ i, i < 16 → sect.getD i 0 < 16 := by decide

theorem Pinv_lt : ∀ r, r < 16 → Pinv.getD r 0 < 16 := by decide

theorem Pinv_sect : ∀ i, i < 16 → Pinv.getD (sect.getD i 0) 0 = i := by decide

theorem sect_Pinv : ∀ r, r < 16 → sect.getD (Pinv.getD r 0) 0 = r := by decide

theorem eq_sect_iff (i r : Nat) (hi : i < 16) :
    r = sect.getD i 0 ↔ r < 16 ∧ Pinv.getD r 0 = i := by
  constructor
  · intro h
    subst h
    exact ⟨sect_lt i hi, Pinv_sect i hi⟩
  · rintro ⟨hr, hp⟩
    subst hp
    exact (sect_Pinv r hr).symm

theorem for_loop_stop (k i n N : Nat) (buf : Buf) (src : RFile) (hn : n ≠ 0x100) :
    for_loop k i n N buf src = (n, N, buf, src) := by
  cases k with
  | zero => rfl
  | succ k => simp [for_loop, hn]

theorem store_take_eq_fill (i : Nat) (hi : i < 16) (data : List Byte) (buf : Buf)
    (hlen : data.length < 256) :
    store buf (sect.getD i 0) (data.take 256) = fill i data buf := by
  funext r c
  simp only [store, fill]
  by_cases hr : r = sect.getD i 0
  · have h := (eq_sect_iff i r hi).mp hr
    rw [if_pos hr, h.2]
    by_cases hc : c < 256
    · rw [if_pos ⟨h.1, hc, Nat.le_refl _⟩]
      simp [List.getElem?_take, hc]
    · rw [if_neg (by omega)]
      have : (List.take 256 data)[c]? = none := by
        apply List.getElem?_eq_none
        simp; omega
      simp [this]
  · rw [if_neg hr]
    split
    · rename_i h
      have hne : Pinv.getD r 0 ≠ i := fun e => hr ((eq_sect_iff i r hi).mpr ⟨h.1, e⟩)
      have : data[(Pinv.getD r 0 - i) * 256 + c]? = none := by
        apply List.getElem?_eq_none
        omega
      rw [this]; rfl
    · rfl

theorem fill_step (i : Nat) (hi : i < 16) (data : List Byte) (buf : Buf) :
    fill (i + 1) (data.drop 256) (store buf (sect.getD i 0) (data.take 256)) = fill i data buf := by
  funext r c
  simp only [fill]
  by_cases h1 : r < 16 ∧ c < 256 ∧ i + 1 ≤ Pinv.getD r 0
  · rw [if_pos h1, if_pos ⟨h1.1, h1.2.1, by omega⟩]
    have hr : r ≠ sect.getD i 0 := fun e => by
      have := ((eq_sect_iff i r hi).mp e).2; omega
    simp only [store, if_neg hr, List.getElem?_drop]
    congr 2
    omega
  · rw [if_neg h1]
    simp only [store]
    by_cases hr : r = sect.getD i 0
    · have h := (eq_sect_iff i r hi).mp hr
      rw [if_pos hr, h.2]
      by_cases hc : c < 256
      · rw [if_pos ⟨h.1, hc, Nat.le_refl _⟩]
        simp [List.getElem?_take, hc]
      · rw [if_neg (by omega)]
        have : (List.take 256 data)[c]? = none := by
          apply List.getElem?_eq_none
          simp; omega
        simp [this]
    · rw [if_neg hr, if_neg]
      rintro ⟨a, b, c'⟩
      have hne : Pinv.getD r 0 ≠ i := fun e => hr ((eq_sect_iff i r hi).mpr ⟨a, e⟩)
      exact h1 ⟨a, b, by omega⟩

theorem for_loop_run : ∀ (k i N : Nat) (buf : Buf) (data : List Byte) (eof : Bool),
    i + k = 16 → N + 256 * k < 2 ^ 32 →
    (for_loop k i 0x100 N buf ⟨data, eof⟩).2.1 = N + min (256 * k) data.length ∧
    (for_loop k i 0x100 N buf ⟨data, eof⟩).2.2.1 = fill i data buf ∧
    (for_loop k i 0x100 N buf ⟨data, eof⟩).2.2.2
      = ⟨data.drop (256 * k), eof || decide (data.length < 256 * k)⟩ := by
  intro k
  induction k with
  | zero =>
    intro i N buf data eof hi _
    refine ⟨by simp [for_loop], ?_, by simp [for_loop]⟩
    funext r c
    simp only [for_loop, fill]
    split
    · rename_i h
      have := Pinv_lt r h.1
      omega
    · rfl
  | succ k ih =>
    intro i N buf data eof hi hN
    have hi16 : i < 16 := by omega
    simp only [for_loop, hi16, true_and, if_true, fread]
    by_cases hlen : 256 ≤ data.length
    · have hl : (List.take 256 data).length = 256 := by
        rw [List.length_take]; omega
      have hn : u32 (List.take 256 data).length = 256 := by
        rw [hl]; exact u32_of_lt (by omega)
      rw [hn, hl]
      have hN1 : u32 (N + 256) = N + 256 := u32_of_lt (by omega)
      rw [hN1]
      obtain ⟨h1, h2, h3⟩ := ih (i + 1) (N + 256)
        (store buf (sect.getD i 0) (List.take 256 data)) (List.drop 256 data)
        (eof || decide (256 < 256)) (by omega) (by omega)
      refine ⟨?_, ?_, ?_⟩
      · rw [h1, List.length_drop]; omega
      · rw [h2]; exact fill_step i hi16 data buf
      · rw [h3]
        simp only [List.drop_drop, List.length_drop, Nat.lt_irrefl, decide_False, Bool.or_false]
        have e1 : 256 + 256 * k = 256 * (k + 1) := by omega
        have e2 : decide (data.length - 256 < 256 * k) = decide (data.length < 256 * (k + 1)) :=
          decide_eq_decide.mpr (by omega)
        rw [e1, e2]
    · have hlen2 : data.length < 256 := by omega
      have hl : (List.take 256 data).length = data.length := by
        rw [List.length_take]; omega
      have hn : u32 (List.take 256 data).length ≠ 256 := by
        rw [hl, u32_of_lt (by omega)]; omega
      rw [for_loop_stop _ _ _ _ _ _ hn, hl]
      have hu : u32 data.length = data.length := u32_of_lt (by omega)
      refine ⟨?_, store_take_eq_fill i hi16 data buf hlen2, ?_⟩
      · show u32 (N + u32 data.length) = _
        rw [hu, u32_of_lt (by omega)]; omega
      · show RFile.mk _ _ = RFile.mk _ _
        have e1 : List.drop 256 data = [] := List.drop_eq_nil_of_le (by omega)
        have e2 : List.drop (256 * (k + 1)) data = [] := List.drop_eq_nil_of_le (by omega)
        have e3 : decide (data.length < 256) = true := decide_eq_true hlen2
        have e4 : decide (data.length < 256 * (k + 1)) = true := decide_eq_true (by omega)
        rw [e1, e2, e3, e4]

theorem group_run (buf : Buf) (data : List Byte) (eof : Bool) :
    (for_loop 16 0 0x100 0 buf ⟨data, eof⟩).2.1 = min 4096 data.length ∧
    (for_loop 16 0 0x100 0 buf ⟨data, eof⟩).2.2.1 = fill 0 data buf ∧
    (for_loop 16 0 0x100 0 buf ⟨data, eof⟩).2.2.2
      = ⟨data.drop 4096, eof || decide (data.length < 4096)⟩ := by
  obtain ⟨h1, h2, h3⟩ := for_loop_run 16 0 0 buf data eof (by omega) (by norm_num)
  refine ⟨?_, h2, ?_⟩
  · rw [h1]; simp
  · rw [h3]

theorem fwrite_fill (buf : Buf) (data tgt : List Byte) :
    fwrite (fill 0 data buf) (min 4096 data.length) tgt = tgt ++ group_out buf data := rfl

theorem interleave_loop_eof (fuel T : Nat) (buf : Buf) (data tgt : List Byte) :
    interleave_loop fuel T buf ⟨data, true⟩ tgt = some (T, buf, ⟨data, true⟩, tgt) := by
  unfold interleave_loop
  simp [feof]

theorem interleave_loop_step (fuel T : Nat) (buf : Buf) (data tgt : List Byte) :
    interleave_loop (fuel + 1) T buf ⟨data, false⟩ tgt
      = interleave_loop fuel (u32 (T + min 4096 data.length)) (fill 0 data buf)
          ⟨data.drop 4096, decide (data.length < 4096)⟩ (tgt ++ group_out buf data) := by
  obtain ⟨h1, h2, h3⟩ := group_run buf data false
  rw [interleave_loop]
  simp only [feof, Bool.false_eq_true, if_false]
  rw [h1, h2, h3, fwrite_fill]
  simp

theorem interleave_loop_out_of_fuel (T : Nat) (buf : Buf) (data tgt : List Byte) :
    interleave_loop 0 T buf ⟨data, false⟩ tgt = none := by
  unfold interleave_loop
  simp [feof]

theorem interleave_loop_run : ∀ (n : Nat) (data : List Byte) (fuel T : Nat) (buf : Buf) (tgt : List Byte),
    data.length / 4096 = n → n + 1 ≤ fuel →
    interleave_loop fuel T buf ⟨data, false⟩ tgt
      = some (u32 (T + data.length), buf_rec (n + 1) buf data, ⟨[], true⟩,
          tgt ++ payload_rec (n + 1) buf data) := by
  intro n
  induction n with
  | zero =>
    intro data fuel T buf tgt hn hf
    obtain ⟨f, rfl⟩ : ∃ f, fuel = f + 1 := ⟨fuel - 1, by omega⟩
    have hlt : data.length < 4096 := by omega
    rw [interleave_loop_step, decide_eq_true hlt, List.drop_eq_nil_of_le (by omega),
      interleave_loop_eof, Nat.min_eq_right (by omega)]
    simp [payload_rec, buf_rec]
  | succ n ih =>
    intro data fuel T buf tgt hn hf
    obtain ⟨f, rfl⟩ : ∃ f, fuel = f + 1 := ⟨fuel - 1, by omega⟩
    have hge : 4096 ≤ data.length := by omega
    rw [interleave_loop_step, decide_eq_false (by omega), Nat.min_eq_left hge,
      ih (data.drop 4096) f _ _ _ (by rw [List.length_drop]; omega) (by omega)]
    have e : u32 (u32 (T + 4096) + (List.drop 4096 data).length) = u32 (T + data.length) := by
      rw [List.length_drop]; unfold u32; omega
    rw [e]
    simp [payload_rec, buf_rec]

theorem group_out_length (buf : Buf) (data : List Byte) :
    (group_out buf data).length = min 4096 data.length := by
  simp [group_out]

theorem payload_rec_length : ∀ (k : Nat) (buf : Buf) (data : List Byte),
    (payload_rec k buf data).length = min (4096 * k) data.length := by
  intro k
  induction k with
  | zero => intro buf data; simp [payload_rec]
  | succ k ih =>
    intro buf data
    simp only [payload_rec, List.length_append, group_out_length, ih, List.length_drop]
    omega

theorem group_out_get (buf : Buf) (data : List Byte) (j : Nat) (hj : j < min 4096 data.length) :
    (group_out buf data)[j]? = some (fill 0 data buf (j / 256) (j % 256)) := by
  simp [group_out, List.getElem?_map, List.getElem?_range hj]

theorem payload_rec_get : ∀ (k : Nat) (buf : Buf) (data : List Byte) (j : Nat),
    j < min (4096 * k) data.length →
    (payload_rec k buf data)[j]?
      = some (fill 0 (data.drop (j / 4096 * 4096)) (buf_rec (j / 4096) buf data)
          (j % 4096 / 256) (j % 4096 % 256)) := by
  intro k
  induction k with
  | zero => intro buf data j hj; omega
  | succ k ih =>
    intro buf data j hj
    simp only [payload_rec]
    by_cases h : j < 4096
    · rw [List.getElem?_append_left (by rw [group_out_length]; omega),
        group_out_get buf data j (by omega)]
      have e1 : j / 4096 = 0 := by omega
      have e2 : j % 4096 = j := by omega
      rw [e1, e2]
      simp [buf_rec]
    · rw [List.getElem?_append_right (by rw [group_out_length]; omega), group_out_length,
        Nat.min_eq_left (by omega),
        ih _ _ (j - 4096) (by rw [List.length_drop]; omega)]
      obtain ⟨q, hq⟩ : ∃ q, j / 4096 = q + 1 := ⟨j / 4096 - 1, by omega⟩
      have e1 : (j - 4096) / 4096 = q := by omega
      have e2 : (j - 4096) % 4096 = j % 4096 := by omega
      rw [e1, e2, hq, List.drop_drop]
      have e3 : 4096 + q * 4096 = (q + 1) * 4096 := by omega
      rw [e3]
      simp [buf_rec]

/-- After a complete group the whole array is determined by that group. -/
theorem buf_rec_full : ∀ (g : Nat) (buf : Buf) (data : List Byte) (r c : Nat),
    (g + 1) * 4096 ≤ data.length → r < 16 → c < 256 →
    some (buf_rec (g + 1) buf data r c) = data[g * 4096 + Pinv.getD r 0 * 256 + c]? := by
  intro g
  induction g with
  | zero =>
    intro buf data r c hlen hr hc
    have hp := Pinv_lt r hr
    have hlt : Pinv.getD r 0 * 256 + c < data.length := by omega
    simp only [buf_rec, fill]
    rw [if_pos ⟨hr, hc, Nat.zero_le _⟩]
    simp only [Nat.sub_zero, Nat.zero_mul, Nat.zero_add]
    rw [List.getElem?_eq_getElem hlt]
    rfl
  | succ g ih =>
    intro buf data r c hlen hr hc
    have := ih (fill 0 data buf) (data.drop 4096) r c (by rw [List.length_drop]; omega) hr hc
    rw [buf_rec, this, List.getElem?_drop]
    congr 1
    omega

/-- Every payload byte in terms of the input: position `j` lies in group `j / 4096`,
row `j % 4096 / 256`, column `j % 256`.  It is the byte of the chunk read into that
row when the input reaches that far, and otherwise the byte left there before the
group started. -/
theorem payload_get (data : List Byte) (buf : Buf) (j : Nat) (hj : j < data.length) :
    (payload_rec (data.length / 4096 + 1) buf data)[j]?
      = if j / 4096 * 4096 + Pinv.getD (j % 4096 / 256) 0 * 256 + j % 256 < data.length then
          data[j / 4096 * 4096 + Pinv.getD (j % 4096 / 256) 0 * 256 + j % 256]?
        else if j / 4096 = 0 then some (buf (j % 4096 / 256) (j % 256))
        else data[(j / 4096 - 1) * 4096 + Pinv.getD (j % 4096 / 256) 0 * 256 + j % 256]? := by
  have hr : j % 4096 / 256 < 16 := by omega
  have hc : j % 4096 % 256 < 256 := by omega
  have hcc : j % 4096 % 256 = j % 256 := by omega
  rw [payload_rec_get _ _ _ _ (by omega)]
  simp only [fill]
  rw [if_pos ⟨hr, hc, Nat.zero_le _⟩, List.getElem?_drop, hcc, Nat.sub_zero]
  have hidx : j / 4096 * 4096 + (Pinv.getD (j % 4096 / 256) 0 * 256 + j % 256)
      = j / 4096 * 4096 + Pinv.getD (j % 4096 / 256) 0 * 256 + j % 256 := by omega
  rw [hidx]
  split
  · rename_i h
    rw [List.getElem?_eq_getElem h]
    rfl
  · rename_i h
    rw [List.getElem?_eq_none (by omega)]
    simp only [Option.getD_none]
    split
    · rename_i h0
      rw [h0]; rfl
    · rename_i h0
      obtain ⟨q, hq⟩ : ∃ q, j / 4096 = q + 1 := ⟨j / 4096 - 1, by omega⟩
      rw [hq, Nat.add_sub_cancel]
      have := buf_rec_full q buf data (j % 4096 / 256) (j % 4096 % 256) (by omega) hr hc
      rw [hcc] at this
      exact this

/-- Complete groups: chunk `i` of group `g` is found in row `sect[i]` of that group. -/
theorem payload_full_get (data : List Byte) (buf : Buf) (g i c : Nat)
    (hg : (g + 1) * 4096 ≤ data.length) (hi : i < 16) (hc : c < 256) :
    (payload_rec (data.length / 4096 + 1) buf data)[g * 4096 + sect.getD i 0 * 256 + c]?
      = data[g * 4096 + i * 256 + c]? := by
  have hs := sect_lt i hi
  have e1 : (g * 4096 + sect.getD i 0 * 256 + c) / 4096 = g := by omega
  have e2 : (g * 4096 + sect.getD i 0 * 256 + c) % 4096 / 256 = sect.getD i 0 := by omega
  have e3 : (g * 4096 + sect.getD i 0 * 256 + c) % 256 = c := by omega
  rw [payload_get _ _ _ (by omega), e1, e2, e3, Pinv_sect i hi, if_pos (by omega)]

theorem pad_loop_eq : ∀ (n : Nat) (tgt : List Byte), pad_loop n tgt = tgt ++ List.replicate n 0 := by
  intro n
  induction n with
  | zero => intro tgt; simp [pad_loop]
  | succ n ih =>
    intro tgt
    rw [pad_loop, ih, fputc, List.replicate_succ]
    simp

theorem pad_count_fits (T : Nat) (h : T ≤ 131072) : pad_count T = 131072 - T := by
  simp only [pad_count, IMAGESIZE, STUBSIZE]
  omega

theorem pad_count_wraps (T : Nat) (h1 : 131072 < T) (h2 : T < 2 ^ 32) :
    pad_count T = 2 ^ 32 + 131072 - T := by
  simp only [pad_count, IMAGESIZE, STUBSIZE]
  omega

theorem interleave_run (story tgt : List Byte) (buf0 : Buf) :
    interleave (fopen_rb story) tgt buf0
      = some (true, ⟨[], true⟩,
          tgt ++ payload_rec (story.length / 4096 + 1) buf0 story
            ++ List.replicate (pad_count (u32 story.length)) 0) := by
  have hdiv : story.length / 4096 + 1 ≤ story.length + 1 := by
    have := Nat.div_le_self story.length 4096
    omega
  simp only [interleave, fopen_rb]
  rw [interleave_loop_run _ story _ 0 buf0 tgt rfl hdiv]
  simp only [Nat.zero_add, pad_loop_eq]

theorem main_run (stub story : List Byte) (buf0 : Buf) (hs : stub.length = 12288) :
    main 12288 stub story buf0
      = some ⟨0, some (stub ++ payload_rec (story.length / 4096 + 1) buf0 story
            ++ List.replicate (pad_count (u32 story.length)) 0)⟩ := by
  have hu : u32 stub.length = STUBSIZE := by rw [hs]; rfl
  simp only [main, validate_zip, copy_zip_run, interleave_run, hu]
  simp [STUBSIZE]

theorem main_reject (st_size : Nat) (stub story : List Byte) (buf0 : Buf) (h : st_size ≠ 12288) :
    main st_size stub story buf0 = some ⟨1, none⟩ := by
  simp [main, validate_zip, STUBSIZE, h]

theorem main_short_copy (stub story : List Byte) (buf0 : Buf) (h : stub.length ≠ 12288)
    (h32 : stub.length < 2 ^ 32) :
    main 12288 stub story buf0 = some ⟨1, some stub⟩ := by
  have hu : u32 stub.length ≠ STUBSIZE := by rw [u32_of_lt h32]; exact h
  simp only [main, validate_zip, copy_zip_run]
  simp [STUBSIZE] at hu ⊢
  simp [hu]

/-! ## Auxiliary facts for the claims -/

theorem sect_eq_P : sect = P := rfl

theorem slot_for_eq : ∀ i, i < 16 → slot_for i = sect.getD i 0 := by decide

theorem loop_run (story tgt : List Byte) (buf0 : Buf) :
    interleave_loop (story.length + 1) 0 buf0 (fopen_rb story) tgt
      = some (u32 story.length, buf_rec (story.length / 4096 + 1) buf0 story, ⟨[], true⟩,
          tgt ++ payload_rec (story.length / 4096 + 1) buf0 story) := by
  have hdiv : story.length / 4096 + 1 ≤ story.length + 1 := by
    have := Nat.div_le_self story.length 4096
    omega
  simp only [fopen_rb]
  rw [interleave_loop_run _ story _ 0 buf0 tgt rfl hdiv, Nat.zero_add]

theorem payload_length (story : List Byte) (buf0 : Buf) :
    (payload_rec (story.length / 4096 + 1) buf0 story).length = story.length := by
  rw [payload_rec_length]
  apply Nat.min_eq_right
  have := Nat.div_add_mod story.length 4096
  have := Nat.mod_lt story.length (show 4096 > 0 by decide)
  omega

theorem inverse_permute_payload (story : List Byte) (buf0 : Buf) (hlen : story.length % 4096 = 0) :
    inverse_permute (payload_rec (story.length / 4096 + 1) buf0 story) = story := by
  apply List.ext_getElem?
  intro j
  simp only [inverse_permute, payload_length]
  by_cases hj : j < story.length
  · rw [List.getElem?_map, List.getElem?_range hj, Option.map_some']
    have hi : j % 4096 / 256 < 16 := by omega
    have e : j / 4096 * 4096 + j % 4096 / 256 * 256 + j % 256 = j := by omega
    have h := payload_full_get story buf0 (j / 4096) (j % 4096 / 256) (j % 256)
      (by omega) hi (by omega)
    rw [e] at h
    rw [slot_for_eq _ hi, List.getD_eq_getElem?_getD, h, List.getElem?_eq_getElem hj]
    rfl
  · rw [List.getElem?_eq_none (by rw [List.length_map, List.length_range]; omega),
      List.getElem?_eq_none (by omega)]

theorem scenarioA_length : scenarioA.length = 8192 := by
  simp only [scenarioA, List.length_append, List.length_replicate]

theorem scenarioA_get (k : Nat) (hk : k < 8192) :
    scenarioA[k]? = some (if k < 4096 then 0 else 255) := by
  unfold scenarioA
  by_cases h : k < 4096
  · rw [List.getElem?_append_left (by rw [List.length_replicate]; exact h), if_pos h,
      List.getElem?_replicate, if_pos h]
  · rw [List.getElem?_append_right (by rw [List.length_replicate]; omega), if_neg h,
      List.getElem?_replicate, List.length_replicate, if_pos (by omega)]

theorem scenarioA_payload (buf0 : Buf) : payload_rec 3 buf0 scenarioA = scenarioA := by
  have e3 : scenarioA.length / 4096 + 1 = 3 := by rw [scenarioA_length]
  have hp := payload_length scenarioA buf0
  rw [e3, scenarioA_length] at hp
  apply List.ext_getElem?
  intro j
  by_cases hj : j < 8192
  · have hr : j % 4096 / 256 < 16 := by omega
    have e : j / 4096 * 4096 + j % 4096 / 256 * 256 + j % 256 = j := by omega
    have h := payload_full_get scenarioA buf0 (j / 4096) (Pinv.getD (j % 4096 / 256) 0) (j % 256)
      (by rw [scenarioA_length]; omega) (Pinv_lt _ hr) (by omega)
    rw [sect_Pinv _ hr, e, e3] at h
    have hp16 := Pinv_lt _ hr
    rw [h, scenarioA_get _ (by omega), scenarioA_get _ hj]
    have : (j / 4096 * 4096 + Pinv.getD (j % 4096 / 256) 0 * 256 + j % 256 < 4096) ↔ j < 4096 := by
      omega
    simp only [this]
  · rw [List.getElem?_eq_none (by omega), List.getElem?_eq_none (by rw [scenarioA_length]; omega)]

/-! ## Claims -/

/-- C1: for every story file whose length is a multiple of 4096 bytes, the
interleaving loop appends exactly as many payload bytes as the input has, and for
every complete group `g` and every `i` in `0..15` the 256 payload bytes at offset
`g*4096 + P[i]*256` are input chunk `i` of group `g`. -/
theorem C1_full_groups_permuted (story tgt : List Byte) (buf0 : Buf)
    (hlen : story.length % 4096 = 0) :
    ∃ (T : Nat) (bufF : Buf) (srcF : RFile) (pay : List Byte),
      interleave_loop (story.length + 1) 0 buf0 (fopen_rb story) tgt
        = some (T, bufF, srcF, tgt ++ pay) ∧
      pay.length = story.length ∧
      ∀ g i c, g * 4096 < story.length → i < 16 → c < 256 →
        g * 4096 + i * 256 + c < story.length ∧
        pay[g * 4096 + P.getD i 0 * 256 + c]? = story[g * 4096 + i * 256 + c]? := by
  refine ⟨_, _, _, _, loop_run story tgt buf0, payload_length story buf0, ?_⟩
  intro g i c hg hi hc
  have hfull : (g + 1) * 4096 ≤ story.length := by omega
  refine ⟨by omega, ?_⟩
  rw [← sect_eq_P]
  exact payload_full_get story buf0 g i c hfull hi hc

/-- Witness for C1: one complete group holding the bytes `0, 1, .., 255` sixteen times. -/
theorem C1_full_groups_permuted_witness :
    ∃ (T : Nat) (bufF : Buf) (srcF : RFile) (pay : List Byte),
      interleave_loop (4096 + 1) 0 (fun _ _ => 0)
          (fopen_rb ((List.range 4096).map (fun k => Fin.ofNat k))) []
        = some (T, bufF, srcF, [] ++ pay) ∧
      pay.length = 4096 ∧
      ∀ g i c, g * 4096 < 4096 → i < 16 → c < 256 →
        g * 4096 + i * 256 + c < 4096 ∧
        pay[g * 4096 + P.getD i 0 * 256 + c]?
          = ((List.range 4096).map (fun k => (Fin.ofNat k : Byte)))[g * 4096 + i * 256 + c]? := by
  have h := C1_full_groups_permuted ((List.range 4096).map (fun k => Fin.ofNat k)) []
    (fun _ _ => 0) (by simp)
  simpa only [List.length_map, List.length_range] using h

/-- C2: for every accepted input (a stub of exactly 12288 bytes and a story file of
at most 131072 bytes) the run succeeds and the image has length exactly 143360. -/
theorem C2_image_length (stub story : List Byte) (buf0 : Buf)
    (hs : stub.length = 12288) (hL : story.length ≤ 131072) :
    ∃ img : List Byte,
      main stub.length stub story buf0 = some ⟨0, some img⟩ ∧ img.length = 143360 := by
  refine ⟨_, by rw [hs]; exact main_run stub story buf0 hs, ?_⟩
  have hu : u32 story.length = story.length := u32_of_lt (by omega)
  rw [hu, pad_count_fits _ hL]
  simp only [List.length_append, List.length_replicate, payload_length, hs]
  omega

/-- Witness for C2: an all-zero stub and a story file of 300 bytes. -/
theorem C2_image_length_witness :
    ∃ img : List Byte,
      main (List.replicate 12288 (0 : Byte)).length (List.replicate 12288 0)
          (List.replicate 300 7) (fun _ _ => 0) = some ⟨0, some img⟩ ∧
      img.length = 143360 :=
  C2_image_length (List.replicate 12288 0) (List.replicate 300 7) (fun _ _ => 0)
    (by simp only [List.length_replicate]) (by simp only [List.length_replicate]; decide)

/-- C3 (evaluation at the failing input): with a valid stub and a story file of
131073 bytes, one byte over capacity, `interleave` returns `true`, the run ends with
status 0, and 4294967295 zero bytes of padding follow the 131073 payload bytes. -/
theorem C3_oversized_story_is_padded :
    ∃ pay : List Byte,
      pay.length = 131073 ∧
      interleave (fopen_rb (List.replicate 131073 0)) (List.replicate 12288 0) (fun _ _ => 0)
        = some (true, ⟨[], true⟩,
            List.replicate 12288 0 ++ pay ++ List.replicate 4294967295 0) ∧
      main 12288 (List.replicate 12288 0) (List.replicate 131073 0) (fun _ _ => 0)
        = some ⟨0, some (List.replicate 12288 0 ++ pay ++ List.replicate 4294967295 0)⟩ := by
  have hl : (List.replicate 131073 (0 : Byte)).length = 131073 := List.length_replicate _ _
  have hp : pad_count (u32 131073) = 4294967295 := by
    rw [u32_of_lt (by norm_num), pad_count_wraps _ (by norm_num) (by norm_num)]
    norm_num
  refine ⟨payload_rec (131073 / 4096 + 1) (fun _ _ => 0) (List.replicate 131073 0), ?_, ?_, ?_⟩
  · have := payload_length (List.replicate 131073 0) (fun _ _ => 0)
    rw [hl] at this
    exact this
  · have := interleave_run (List.replicate 131073 0) (List.replicate 12288 0) (fun _ _ => 0)
    rw [hl, hp] at this
    exact this
  · have := main_run (List.replicate 12288 0) (List.replicate 131073 0) (fun _ _ => 0)
      (List.length_replicate _ _)
    rw [hl, hp] at this
    exact this

/-- C4: for every accepted input the image is the stub bytes, then the payload bytes
appended by the interleaving loop, then exactly `143360 - 12288 - T` zero bytes, `T`
being the transferred byte count; for the story file of scenario A the image is the
stub, 4096 zero bytes, 4096 bytes of `0xFF` and 122880 zero bytes. -/
theorem C4_image_layout (stub story : List Byte) (buf0 : Buf)
    (hs : stub.length = 12288) (hL : story.length ≤ 131072) :
    (∃ (T : Nat) (bufF : Buf) (srcF : RFile) (pay : List Byte),
      interleave_loop (story.length + 1) 0 buf0 (fopen_rb story) stub
        = some (T, bufF, srcF, stub ++ pay) ∧
      main stub.length stub story buf0
        = some ⟨0, some (stub ++ pay ++ List.replicate (143360 - 12288 - T) 0)⟩) ∧
    (story = List.replicate 4096 0 ++ List.replicate 4096 255 →
      main stub.length stub story buf0
        = some ⟨0, some (stub ++ List.replicate 4096 0 ++ List.replicate 4096 255
            ++ List.replicate 122880 0)⟩) := by
  have hu : u32 story.length = story.length := u32_of_lt (by omega)
  have hm := main_run stub story buf0 hs
  rw [hu, pad_count_fits _ hL] at hm
  constructor
  · refine ⟨_, _, _, _, loop_run story stub buf0, ?_⟩
    rw [hu, hs]
    exact hm
  · intro hstory
    have hA : story = scenarioA := hstory
    subst hA
    have e3 : scenarioA.length / 4096 + 1 = 3 := by rw [scenarioA_length]
    rw [e3, scenarioA_payload, scenarioA_length] at hm
    rw [hs, hm]
    simp only [scenarioA, List.append_assoc]

/-- Witness for C4: an all-zero stub with the story file of scenario A. -/
theorem C4_image_layout_witness :
    main (List.replicate 12288 (0 : Byte)).length (List.replicate 12288 0)
        (List.replicate 4096 0 ++ List.replicate 4096 255) (fun _ _ => 0)
      = some ⟨0, some (List.replicate 12288 0 ++ List.replicate 4096 0
          ++ List.replicate 4096 255 ++ List.replicate 122880 0)⟩ :=
  (C4_image_layout (List.replicate 12288 0) (List.replicate 4096 0 ++ List.replicate 4096 255)
    (fun _ _ => 0) (by simp only [List.length_replicate])
    (by simp only [List.length_append, List.length_replicate]; decide)).2 rfl

/-- C5: for every story file whose length is a multiple of 4096 bytes, applying the
inverse permutation (slot `s` of each group moves to chunk position `Pinv[s]`) to the
payload written by the interleaving loop gives back the story file; `Pinv` is the
inverse of the table `P`. -/
theorem C5_inverse_permutation_round_trip (story tgt : List Byte) (buf0 : Buf)
    (hlen : story.length % 4096 = 0) :
    (∃ (T : Nat) (bufF : Buf) (srcF : RFile) (pay : List Byte),
      interleave_loop (story.length + 1) 0 buf0 (fopen_rb story) tgt
        = some (T, bufF, srcF, tgt ++ pay) ∧
      inverse_permute pay = story) ∧
    (∀ i, i < 16 → Pinv.getD (P.getD i 0) 0 = i) ∧
    (∀ s, s < 16 → P.getD (Pinv.getD s 0) 0 = s) :=
  ⟨⟨_, _, _, _, loop_run story tgt buf0, inverse_permute_payload story buf0 hlen⟩,
    Pinv_sect, sect_Pinv⟩

/-- Witness for C5: one complete group holding the bytes `0, 1, .., 255` sixteen times. -/
theorem C5_inverse_permutation_round_trip_witness :
    ∃ (T : Nat) (bufF : Buf) (srcF : RFile) (pay : List Byte),
      interleave_loop (((List.range 4096).map (fun k => (Fin.ofNat k : Byte))).length + 1) 0
          (fun _ _ => 0) (fopen_rb ((List.range 4096).map (fun k => Fin.ofNat k))) []
        = some (T, bufF, srcF, [] ++ pay) ∧
      inverse_permute pay = (List.range 4096).map (fun k => Fin.ofNat k) :=
  (C5_inverse_permutation_round_trip ((List.range 4096).map (fun k => Fin.ofNat k)) []
    (fun _ _ => 0) (by simp only [List.length_map, List.length_range])).1

/-- C6: for every stub input of length below `2^32` (bytes of value `0xFF` included)
`copy_zip` appends exactly the input bytes in their order to the target and returns
their number; for a stub of 12288 bytes the output is the input and the count 12288. -/
theorem C6_copy_zip_verbatim (stub tgt : List Byte) (h32 : stub.length < 2 ^ 32) :
    copy_zip (fopen_rb stub) tgt = some (stub.length, ⟨[], true⟩, tgt ++ stub) ∧
    (stub.length = 12288 → copy_zip (fopen_rb stub) [] = some (12288, ⟨[], true⟩, stub)) := by
  have h := copy_zip_run stub
  constructor
  · rw [h tgt, u32_of_lt h32]
  · intro hs
    rw [h [], u32_of_lt h32, hs, List.nil_append]

/-- Witness for C6: a stub of 12288 bytes of value `0xFF`. -/
theorem C6_copy_zip_verbatim_witness :
    copy_zip (fopen_rb (List.replicate 12288 255)) []
      = some (12288, ⟨[], true⟩, List.replicate 12288 255) :=
  (C6_copy_zip_verbatim (List.replicate 12288 255) []
    (by simp only [List.length_replicate]; decide)).2 (by simp only [List.length_replicate])

/-- C7: for every story file of length `L` below `2^32`, multiple of 4096 or not, the
interleaving loop ends with `T = L` and has appended exactly `L` bytes to the target;
a 300-byte story file is handled by a single pass that writes 300 bytes, and with a
valid stub the image still has 143360 bytes. -/
theorem C7_transfers_every_length (stub story tgt : List Byte) (buf0 : Buf)
    (h32 : story.length < 2 ^ 32) :
    (∃ (bufF : Buf) (srcF : RFile) (pay : List Byte),
      interleave_loop (story.length + 1) 0 buf0 (fopen_rb story) tgt
        = some (story.length, bufF, srcF, tgt ++ pay) ∧
      pay.length = story.length) ∧
    (story.length = 300 → stub.length = 12288 →
      (∃ (bufF : Buf) (srcF : RFile) (pay : List Byte),
        interleave_loop 1 0 buf0 (fopen_rb story) tgt = some (300, bufF, srcF, tgt ++ pay) ∧
        pay.length = 300) ∧
      ∃ img : List Byte,
        main stub.length stub story buf0 = some ⟨0, some img⟩ ∧ img.length = 143360) := by
  have hu : u32 story.length = story.length := u32_of_lt h32
  have hrun := loop_run story tgt buf0
  rw [hu] at hrun
  refine ⟨⟨_, _, _, hrun, payload_length story buf0⟩, ?_⟩
  intro h300 hs
  constructor
  · have h1 := interleave_loop_run 0 story 1 0 buf0 tgt (by omega) (by omega)
    rw [Nat.zero_add, hu, h300] at h1
    refine ⟨_, _, _, h1, ?_⟩
    rw [payload_rec_length, h300]
    rfl
  · refine ⟨_, by rw [hs]; exact main_run stub story buf0 hs, ?_⟩
    rw [hu, pad_count_fits _ (by omega)]
    simp only [List.length_append, List.length_replicate, payload_length, hs]
    omega

/-- Witness for C7: a 300-byte story file behind an all-zero stub. -/
theorem C7_transfers_every_length_witness :
    (∃ (bufF : Buf) (srcF : RFile) (pay : List Byte),
      interleave_loop 1 0 (fun _ _ => 0) (fopen_rb (List.replicate 300 7)) []
        = some (300, bufF, srcF, [] ++ pay) ∧
      pay.length = 300) ∧
    ∃ img : List Byte,
      main (List.replicate 12288 (0 : Byte)).length (List.replicate 12288 0)
          (List.replicate 300 7) (fun _ _ => 0) = some ⟨0, some img⟩ ∧
      img.length = 143360 :=
  (C7_transfers_every_length (List.replicate 12288 0) (List.replicate 300 7) []
    (fun _ _ => 0) (by simp only [List.length_replicate]; decide)).2
    (by simp only [List.length_replicate]) (by simp only [List.length_replicate])

theorem staleExample_length : staleExample.length = 4396 := by
  simp only [staleExample, List.length_append, List.length_replicate]

theorem staleExample_get (k : Nat) (hk : k < 4096) : staleExample[k]? = some 255 := by
  unfold staleExample
  rw [List.getElem?_append_left (by rw [List.length_replicate]; exact hk),
    List.getElem?_replicate, if_pos hk]

/-- Bytes of the final group that lie in the written range but in a part of a row that
no chunk of the final group reached. -/
theorem payload_stale_get (story : List Byte) (buf0 : Buf) (i c : Nat) (hi : i < 16) (hc : c < 256)
    (hw : sect.getD i 0 * 256 + c < story.length % 4096)
    (hu : story.length % 4096 ≤ i * 256 + c) :
    (payload_rec (story.length / 4096 + 1) buf0 story)[
        story.length / 4096 * 4096 + sect.getD i 0 * 256 + c]?
      = if story.length / 4096 = 0 then some (buf0 (sect.getD i 0) c)
        else story[(story.length / 4096 - 1) * 4096 + i * 256 + c]? := by
  have hs := sect_lt i hi
  have hL := Nat.div_add_mod story.length 4096
  have e1 : (story.length / 4096 * 4096 + sect.getD i 0 * 256 + c) / 4096
      = story.length / 4096 := by omega
  have e2 : (story.length / 4096 * 4096 + sect.getD i 0 * 256 + c) % 4096 / 256
      = sect.getD i 0 := by omega
  have e3 : (story.length / 4096 * 4096 + sect.getD i 0 * 256 + c) % 256 = c := by omega
  rw [payload_get _ _ _ (by omega), e1, e2, e3, Pinv_sect i hi, if_neg (by omega)]

/-- C8 (refuted as stated): for the story file of 4096 bytes of `0xFF` followed by 300
zero bytes, read with an all-zero initial array, the payload bytes `4096+256 .. 4096+299`
are `0xFF`, not 0. -/
theorem C8_final_group_not_zeroed :
    ∃ (T : Nat) (bufF : Buf) (srcF : RFile) (pay : List Byte),
      interleave_loop (staleExample.length + 1) 0 (fun _ _ => 0) (fopen_rb staleExample) []
        = some (T, bufF, srcF, pay) ∧
      ∀ c, c < 44 → pay[4096 + 256 + c]? = some 255 ∧ pay[4096 + 256 + c]? ≠ some 0 := by
  refine ⟨_, _, _, _, loop_run staleExample [] (fun _ _ => 0), ?_⟩
  intro c hc
  have h := payload_stale_get staleExample (fun _ _ => 0) 7 c (by decide) (by omega)
    (by rw [staleExample_length]; simp only [sect, List.getD_cons_succ, List.getD_cons_zero]; omega)
    (by rw [staleExample_length]; omega)
  have hs : sect.getD 7 0 = 1 := rfl
  rw [hs, staleExample_length] at h
  have e : 4396 / 4096 * 4096 + 1 * 256 + c = 4096 + 256 + c := by omega
  have e2 : (4396 / 4096 - 1) * 4096 + 7 * 256 + c = 1792 + c := by omega
  rw [e, e2, if_neg (by decide), staleExample_get _ (by omega)] at h
  simp only [List.nil_append, staleExample_length]
  rw [h]
  exact ⟨rfl, by decide⟩

/-- C8 (amended): the array is never renewed.  In a final group of `m` bytes,
`0 < m < 4096`, a written byte in row `sect[i]`, column `c` that chunk `i` did not
reach (`m ≤ i*256 + c`) keeps what the array held before the group: the byte of chunk
`i` at column `c` of the preceding group, or the initial content of the array when
there is no preceding group. -/
theorem C8_final_group_keeps_stale_bytes (story tgt : List Byte) (buf0 : Buf) (i c : Nat)
    (hi : i < 16) (hc : c < 256)
    (hw : sect.getD i 0 * 256 + c < story.length % 4096)
    (hu : story.length % 4096 ≤ i * 256 + c) :
    ∃ (T : Nat) (bufF : Buf) (srcF : RFile) (pay : List Byte),
      interleave_loop (story.length + 1) 0 buf0 (fopen_rb story) tgt
        = some (T, bufF, srcF, tgt ++ pay) ∧
      pay.length = story.length ∧
      pay[story.length / 4096 * 4096 + sect.getD i 0 * 256 + c]?
        = if story.length / 4096 = 0 then some (buf0 (sect.getD i 0) c)
          else story[(story.length / 4096 - 1) * 4096 + i * 256 + c]? :=
  ⟨_, _, _, _, loop_run story tgt buf0, payload_length story buf0,
    payload_stale_get story buf0 i c hi hc hw hu⟩

/-- Witness for C8 (amended): in the stale-buffer example the byte in row `sect[7] = 1`,
column 0 of the final group is the byte of chunk 7, column 0 of the first group. -/
theorem C8_final_group_keeps_stale_bytes_witness :
    ∃ (T : Nat) (bufF : Buf) (srcF : RFile) (pay : List Byte),
      interleave_loop (staleExample.length + 1) 0 (fun _ _ => 0) (fopen_rb staleExample) []
        = some (T, bufF, srcF, [] ++ pay) ∧
      pay.length = staleExample.length ∧
      pay[staleExample.length / 4096 * 4096 + sect.getD 7 0 * 256 + 0]?
        = if staleExample.length / 4096 = 0 then some ((fun _ _ => (0 : Byte)) (sect.getD 7 0) 0)
          else staleExample[(staleExample.length / 4096 - 1) * 4096 + 7 * 256 + 0]? :=
  C8_final_group_keeps_stale_bytes staleExample [] (fun _ _ => 0) 7 0 (by decide) (by decide)
    (by rw [staleExample_length]; decide) (by rw [staleExample_length]; decide)

/-- C9: for every stub whose length differs from 12288 bytes the run ends with
status 1 before the target is opened; and should `stat` nevertheless report some other
size, `main` stops after `copy_zip` (for lengths below `2^32`), the target then
holding the copied stub bytes only, neither story bytes nor padding. -/
theorem C9_wrong_stub_size_stops (stub story : List Byte) (buf0 : Buf)
    (hs : stub.length ≠ 12288) :
    validate_zip stub.length = false ∧
    main stub.length stub story buf0 = some ⟨1, none⟩ ∧
    (stub.length < 2 ^ 32 →
      (∃ zipF, copy_zip (fopen_rb stub) [] = some (stub.length, zipF, stub)) ∧
      ∀ st_size,
        main st_size stub story buf0 = some ⟨1, none⟩ ∨
        main st_size stub story buf0 = some ⟨1, some stub⟩) := by
  refine ⟨by simp [validate_zip, STUBSIZE, hs], main_reject _ stub story buf0 hs, ?_⟩
  intro h32
  constructor
  · refine ⟨⟨[], true⟩, ?_⟩
    rw [copy_zip_run, u32_of_lt h32, List.nil_append]
  · intro st_size
    by_cases h : st_size = 12288
    · right
      rw [h]
      exact main_short_copy stub story buf0 hs h32
    · left
      exact main_reject _ stub story buf0 h

/-- Witness for C9: a stub of 12287 bytes. -/
theorem C9_wrong_stub_size_stops_witness :
    main (List.replicate 12287 (0 : Byte)).length (List.replicate 12287 0)
      (List.replicate 300 7) (fun _ _ => 0) = some ⟨1, none⟩ :=
  (C9_wrong_stub_size_stops (List.replicate 12287 0) (List.replicate 300 7) (fun _ _ => 0)
    (by simp only [List.length_replicate]; decide)).2.1

theorem buf_rec_last : ∀ (k : Nat) (buf : Buf) (data : List Byte),
    buf_rec (k + 1) buf data = fill 0 (data.drop (k * 4096)) (buf_rec k buf data) := by
  intro k
  induction k with
  | zero => intro buf data; simp [buf_rec]
  | succ k ih =>
    intro buf data
    rw [buf_rec, ih, List.drop_drop]
    have e : 4096 + k * 4096 = (k + 1) * 4096 := by omega
    rw [e]
    rfl

theorem take_agree {s1 s2 : List Byte} {n : Nat} (h : s1.take n = s2.take n) (k : Nat)
    (hk : k < n) : s1[k]? = s2[k]? := by
  have := congrArg (fun l => l[k]?) h
  simpa only [List.getElem?_take, if_pos hk] using this

/-- Two inputs of equal length `L`, `L % 4096 = 300`, that differ only in their last
44 bytes give the same payload. -/
theorem payload_blind_to_tail (s1 s2 : List Byte) (buf0 : Buf)
    (hlen : s1.length = s2.length) (hm : s1.length % 4096 = 300)
    (hagree : s1.take (s1.length - 44) = s2.take (s2.length - 44)) :
    payload_rec (s1.length / 4096 + 1) buf0 s1 = payload_rec (s2.length / 4096 + 1) buf0 s2 := by
  have hL := Nat.div_add_mod s1.length 4096
  rw [← hlen] at hagree ⊢
  apply List.ext_getElem?
  intro j
  by_cases hj : j < s1.length
  · have h1 := payload_get s1 buf0 j hj
    have h2 := payload_get s2 buf0 j (by omega)
    rw [← hlen] at h2
    rw [h1, h2]
    have hr : j % 4096 / 256 < 16 := by omega
    have hp := Pinv_lt _ hr
    by_cases hg : j / 4096 < s1.length / 4096
    · have hcond : j / 4096 * 4096 + Pinv.getD (j % 4096 / 256) 0 * 256 + j % 256 < s1.length := by
        omega
      simp only [if_pos hcond]
      exact take_agree hagree _ (by omega)
    · have hgG : j / 4096 = s1.length / 4096 := by omega
      have hr01 : j % 4096 / 256 = 0 ∨ j % 4096 / 256 = 1 := by omega
      rcases hr01 with h0 | h0
      · have hp0 : Pinv.getD (j % 4096 / 256) 0 = 0 := by rw [h0]; decide
        rw [hp0]
        have hcond : j / 4096 * 4096 + 0 * 256 + j % 256 < s1.length := by omega
        simp only [if_pos hcond]
        exact take_agree hagree _ (by omega)
      · have hp1 : Pinv.getD (j % 4096 / 256) 0 = 7 := by rw [h0]; decide
        rw [hp1]
        have hcond : ¬ (j / 4096 * 4096 + 7 * 256 + j % 256 < s1.length) := by omega
        simp only [if_neg hcond]
        by_cases hz : j / 4096 = 0
        · simp only [if_pos hz]
        · simp only [if_neg hz]
          exact take_agree hagree _ (by omega)
  · rw [List.getElem?_eq_none (by rw [payload_length]; omega),
      List.getElem?_eq_none (by rw [hlen, payload_length]; omega)]

/-- In a final group of 300 bytes the 44 bytes of the short second chunk end up in
row 13 of the array. -/
theorem tail_in_row_13 (story : List Byte) (buf0 : Buf) (hm : story.length % 4096 = 300)
    (c : Nat) (hc : c < 44) :
    some (buf_rec (story.length / 4096 + 1) buf0 story 13 c)
      = story[story.length - 44 + c]? := by
  have hL := Nat.div_add_mod story.length 4096
  rw [buf_rec_last]
  simp only [fill]
  have hp : Pinv.getD 13 0 = 1 := rfl
  rw [if_pos ⟨by decide, by omega, Nat.zero_le _⟩, hp, List.getElem?_drop]
  have e : story.length / 4096 * 4096 + ((1 - 0) * 256 + c) = story.length - 44 + c := by omega
  rw [e, List.getElem?_eq_getElem (by omega)]
  rfl

/-- C10: the final group is flushed by byte offset, not in read order.  For two story
files of the same length `L`, `L mod 4096 = 300`, that agree except in their last 44
bytes, the interleaving loop started from the same array content appends the same
payload, `interleave` gives the same result, and the 44 bytes sit in row 13 of the
array, outside the 300 bytes written. -/
theorem C10_short_chunk_never_written (s1 s2 tgt : List Byte) (buf0 : Buf)
    (hlen : s1.length = s2.length) (hm : s1.length % 4096 = 300)
    (hagree : s1.take (s1.length - 44) = s2.take (s2.length - 44)) :
    (∃ (pay : List Byte) (T1 T2 : Nat) (bufF1 bufF2 : Buf) (srcF1 srcF2 : RFile),
      interleave_loop (s1.length + 1) 0 buf0 (fopen_rb s1) tgt
        = some (T1, bufF1, srcF1, tgt ++ pay) ∧
      interleave_loop (s2.length + 1) 0 buf0 (fopen_rb s2) tgt
        = some (T2, bufF2, srcF2, tgt ++ pay) ∧
      pay.length = s1.length ∧
      ∀ c, c < 44 → some (bufF1 13 c) = s1[s1.length - 44 + c]? ∧
        some (bufF2 13 c) = s2[s2.length - 44 + c]?) ∧
    interleave (fopen_rb s1) tgt buf0 = interleave (fopen_rb s2) tgt buf0 ∧
    (interleave (fopen_rb s1) tgt buf0).isSome = true := by
  have hpay := payload_blind_to_tail s1 s2 buf0 hlen hm hagree
  refine ⟨⟨payload_rec (s1.length / 4096 + 1) buf0 s1, u32 s1.length, u32 s2.length,
    buf_rec (s1.length / 4096 + 1) buf0 s1, buf_rec (s2.length / 4096 + 1) buf0 s2,
    ⟨[], true⟩, ⟨[], true⟩, loop_run s1 tgt buf0, ?_, payload_length s1 buf0, ?_⟩, ?_, ?_⟩
  · rw [hpay]
    exact loop_run s2 tgt buf0
  · intro c hc
    exact ⟨tail_in_row_13 s1 buf0 hm c hc, tail_in_row_13 s2 buf0 (by rw [← hlen]; exact hm) c hc⟩
  · rw [interleave_run, interleave_run, hpay, hlen]
  · rw [interleave_run]
    rfl

/-- Witness for C10: 300 zero bytes against 256 zero bytes followed by 44 bytes of `0xFF`. -/
theorem C10_short_chunk_never_written_witness :
    interleave (fopen_rb (List.replicate 300 0)) [] (fun _ _ => 0)
      = interleave (fopen_rb (List.replicate 256 0 ++ List.replicate 44 255)) [] (fun _ _ => 0) ∧
    (interleave (fopen_rb (List.replicate 300 0)) [] (fun _ _ => 0)).isSome = true :=
  (C10_short_chunk_never_written (List.replicate 300 0)
    (List.replicate 256 0 ++ List.replicate 44 255) [] (fun _ _ => 0)
    (by simp only [List.length_append, List.length_replicate])
    (by simp only [List.length_replicate])
    (by
      simp only [List.length_append, List.length_replicate, List.take_replicate]
      rw [List.take_append_of_le_length (by simp only [List.length_replicate]; decide),
        List.take_replicate]
      rfl)).2

/-! ## Claims on padding, termination, the table and the final group -/

/-- C11: the padding count is an unsigned 32-bit difference and wraps when the payload
exceeds capacity: for a story file of length `L`, `131072 < L < 2^32`, the loop ends
with `T = L`, the count is `(143360 - 12288 - L) mod 2^32 = 2^32 + 131072 - L`, and
`interleave` appends that many zero bytes after the payload. -/
theorem C11_padding_count_wraps (story tgt : List Byte) (buf0 : Buf)
    (h1 : 131072 < story.length) (h2 : story.length < 2 ^ 32) :
    ∃ (bufF : Buf) (srcF : RFile) (pay : List Byte),
      interleave_loop (story.length + 1) 0 buf0 (fopen_rb story) tgt
        = some (story.length, bufF, srcF, tgt ++ pay) ∧
      pay.length = story.length ∧
      pad_count story.length = 2 ^ 32 + 131072 - story.length ∧
      ((pad_count story.length : Nat) : Int)
        = ((143360 : Int) - 12288 - (story.length : Int)) % 2 ^ 32 ∧
      interleave (fopen_rb story) tgt buf0
        = some (true, srcF,
            tgt ++ pay ++ List.replicate (2 ^ 32 + 131072 - story.length) 0) := by
  have hu : u32 story.length = story.length := u32_of_lt h2
  have hrun := loop_run story tgt buf0
  have hint := interleave_run story tgt buf0
  have hp := pad_count_wraps story.length h1 h2
  rw [hu] at hrun hint
  rw [hp] at hint
  refine ⟨_, _, _, hrun, payload_length story buf0, hp, ?_, hint⟩
  rw [hp]
  omega

/-- Witness for C11: a story file of 131073 bytes, one byte over capacity. -/
theorem C11_padding_count_wraps_witness :
    pad_count (List.replicate 131073 (0 : Byte)).length
      = 2 ^ 32 + 131072 - (List.replicate 131073 (0 : Byte)).length := by
  obtain ⟨_, _, _, _, _, h, _⟩ := C11_padding_count_wraps (List.replicate 131073 0) []
    (fun _ _ => 0) (by simp only [List.length_replicate]; decide)
    (by simp only [List.length_replicate]; decide)
  exact h

theorem interleave_total (src : RFile) (tgt : List Byte) (buf0 : Buf) :
    ∃ (srcF : RFile) (tgtF : List Byte), interleave src tgt buf0 = some (true, srcF, tgtF) := by
  obtain ⟨data, eof⟩ := src
  cases eof with
  | true =>
    simp only [interleave, interleave_loop_eof]
    exact ⟨_, _, rfl⟩
  | false =>
    have hdiv : data.length / 4096 + 1 ≤ data.length + 1 := by
      have := Nat.div_le_self data.length 4096
      omega
    simp only [interleave]
    rw [interleave_loop_run _ data _ 0 buf0 tgt rfl hdiv]
    exact ⟨_, _, rfl⟩

theorem main_after_copy (st_size : Nat) (stub story : List Byte) (buf0 : Buf)
    (hv : validate_zip st_size = true)
    (hc : ∃ (zipF : RFile) (t1 : List Byte), copy_zip (fopen_rb stub) [] = some (STUBSIZE, zipF, t1)) :
    ∃ img : List Byte, main st_size stub story buf0 = some ⟨0, some img⟩ := by
  obtain ⟨zipF, t1, hc⟩ := hc
  obtain ⟨srcF, tgtF, hi⟩ := interleave_total (fopen_rb story) t1 buf0
  refine ⟨tgtF, ?_⟩
  simp only [main, hv, hc, hi]
  simp

/-- C16: `interleave` never reports failure.  From every state of the source stream,
every target content and every array content it returns `true`; and whenever `main`
gets past `validate_zip` and `copy_zip`, whatever the story file, the run ends with
status 0. -/
theorem C16_interleave_never_fails (src : RFile) (tgt : List Byte) (buf0 : Buf)
    (st_size : Nat) (stub story : List Byte) :
    (∃ (srcF : RFile) (tgtF : List Byte), interleave src tgt buf0 = some (true, srcF, tgtF)) ∧
    (validate_zip st_size = true →
      (∃ (zipF : RFile) (t1 : List Byte),
        copy_zip (fopen_rb stub) [] = some (STUBSIZE, zipF, t1)) →
      ∃ img : List Byte, main st_size stub story buf0 = some ⟨0, some img⟩) :=
  ⟨interleave_total src tgt buf0, main_after_copy st_size stub story buf0⟩

/-- Witness for C16: a valid stub with a story file of 131073 bytes, one byte over
capacity, still ends with status 0. -/
theorem C16_interleave_never_fails_witness :
    ∃ img : List Byte,
      main 12288 (List.replicate 12288 0) (List.replicate 131073 0) (fun _ _ => 0)
        = some ⟨0, some img⟩ :=
  (C16_interleave_never_fails (fopen_rb []) [] (fun _ _ => 0) 12288 (List.replicate 12288 0)
    (List.replicate 131073 0)).2 (by decide)
    ⟨⟨[], true⟩, List.replicate 12288 0, by
      rw [copy_zip_run, List.nil_append, List.length_replicate]
      rfl⟩

/-- After the inner loop has read a complete group, every chunk is found in its own
row: chunk `i` in row `sect[i]`. -/
theorem full_group_rows (buf : Buf) (data : List Byte) (eof : Bool) (i c : Nat)
    (hlen : 4096 ≤ data.length) (hi : i < 16) (hc : c < 256) :
    some ((for_loop 16 0 0x100 0 buf ⟨data, eof⟩).2.2.1 (sect.getD i 0) c)
      = data[i * 256 + c]? := by
  obtain ⟨_, h2, _⟩ := group_run buf data eof
  rw [h2]
  simp only [fill]
  rw [if_pos ⟨sect_lt i hi, hc, Nat.zero_le _⟩, Pinv_sect i hi, Nat.sub_zero,
    List.getElem?_eq_getElem (by omega)]
  rfl

/-- C13: the table of `interleave` is the table `P` of the specification; it is a
permutation of `0..15` (every slot index occurs exactly once, no two chunk indices
share a slot), `P[i] = 13*i mod 15` for `i < 15` and `P[15] = 15`; hence after a
complete group was read every one of its 16 chunks is intact in its own row. -/
theorem C13_table_is_permutation :
    sect = [0, 13, 11, 9, 7, 5, 3, 1, 14, 12, 10, 8, 6, 4, 2, 15] ∧
    sect = P ∧
    sect.length = 16 ∧
    (∀ s, s < 16 → sect.count s = 1) ∧
    (∀ i, i < 16 → sect.getD i 0 < 16) ∧
    (∀ i, i < 16 → ∀ j, j < 16 → sect.getD i 0 = sect.getD j 0 → i = j) ∧
    (∀ i, i < 15 → sect.getD i 0 = 13 * i % 15) ∧
    sect.getD 15 0 = 15 ∧
    (∀ (buf : Buf) (data : List Byte) (eof : Bool), 4096 ≤ data.length →
      ∀ i, i < 16 → ∀ c, c < 256 →
        some ((for_loop 16 0 0x100 0 buf ⟨data, eof⟩).2.2.1 (sect.getD i 0) c)
          = data[i * 256 + c]?) := by
  refine ⟨rfl, rfl, rfl, by decide, by decide, by decide, by decide, rfl, ?_⟩
  intro buf data eof hlen i hi c hc
  exact full_group_rows buf data eof i c hlen hi hc

theorem interleave_loop_succ (fuel T : Nat) (buf : Buf) (src : RFile) (tgt : List Byte)
    (h : feof src = false) :
    interleave_loop (fuel + 1) T buf src tgt
      = interleave_loop fuel (interleave_body (T, buf, src, tgt)).1
          (interleave_body (T, buf, src, tgt)).2.1 (interleave_body (T, buf, src, tgt)).2.2.1
          (interleave_body (T, buf, src, tgt)).2.2.2 := by
  rw [interleave_loop]
  simp only [h, Bool.false_eq_true, if_false, interleave_body]

theorem interleave_loop_done (fuel T : Nat) (buf : Buf) (src : RFile) (tgt : List Byte)
    (h : feof src = true) :
    interleave_loop fuel T buf src tgt = some (T, buf, src, tgt) := by
  unfold interleave_loop
  simp [h]

/-- The loop returns the state reached after `k` passes when the end-of-file
indicator is clear before each of them and set after the last. -/
theorem loop_eq_iterate : ∀ (k fuel : Nat) (s : Nat × Buf × RFile × List Byte),
    (∀ j, j < k → feof (Nat.iterate interleave_body j s).2.2.1 = false) →
    feof (Nat.iterate interleave_body k s).2.2.1 = true →
    k ≤ fuel →
    interleave_loop fuel s.1 s.2.1 s.2.2.1 s.2.2.2 = some (Nat.iterate interleave_body k s) := by
  intro k
  induction k with
  | zero =>
    intro fuel s _ hdone _
    exact interleave_loop_done fuel _ _ _ _ hdone
  | succ k ih =>
    intro fuel s hrun hdone hf
    obtain ⟨f, rfl⟩ : ∃ f, fuel = f + 1 := ⟨fuel - 1, by omega⟩
    have h0 : feof s.2.2.1 = false := hrun 0 (by omega)
    rw [interleave_loop_succ f _ _ _ _ h0]
    have := ih f (interleave_body s)
      (fun j hj => by
        have := hrun (j + 1) (by omega)
        rwa [Function.iterate_succ_apply] at this)
      (by rwa [Function.iterate_succ_apply] at hdone) (by omega)
    rw [Function.iterate_succ_apply]
    exact this

theorem interleave_body_run (T : Nat) (buf : Buf) (data tgt : List Byte) :
    interleave_body (T, buf, ⟨data, false⟩, tgt)
      = (u32 (T + min 4096 data.length), fill 0 data buf,
          ⟨data.drop 4096, decide (data.length < 4096)⟩, tgt ++ group_out buf data) := by
  obtain ⟨h1, h2, h3⟩ := group_run buf data false
  simp only [interleave_body]
  rw [h1, h2, h3, fwrite_fill]
  simp

theorem u32_lt (x : Nat) : u32 x < 2 ^ 32 := Nat.mod_lt _ (by norm_num)

theorem iterate_body : ∀ (k : Nat) (data : List Byte) (T : Nat) (buf : Buf) (tgt : List Byte),
    T < 2 ^ 32 → 4096 * k ≤ data.length →
    Nat.iterate interleave_body k (T, buf, ⟨data, false⟩, tgt)
      = (u32 (T + 4096 * k), buf_rec k buf data, ⟨data.drop (4096 * k), false⟩,
          tgt ++ payload_rec k buf data) := by
  intro k
  induction k with
  | zero =>
    intro data T buf tgt hT _
    simp only [Function.iterate_zero, id_eq, Nat.mul_zero, Nat.add_zero, u32_of_lt hT,
      buf_rec, payload_rec, List.drop_zero, List.append_nil]
  | succ k ih =>
    intro data T buf tgt _ hlen
    rw [Function.iterate_succ_apply, interleave_body_run, Nat.min_eq_left (by omega),
      decide_eq_false (by omega), ih _ _ _ _ (u32_lt _) (by rw [List.length_drop]; omega)]
    have e1 : u32 (u32 (T + 4096) + 4096 * k) = u32 (T + 4096 * (k + 1)) := by
      unfold u32; omega
    have e2 : 4096 + 4096 * k = 4096 * (k + 1) := by omega
    rw [e1, List.drop_drop, e2]
    simp [payload_rec, buf_rec]

theorem interleave_loop_starved : ∀ (fuel : Nat) (data : List Byte) (T : Nat) (buf : Buf)
    (tgt : List Byte), fuel ≤ data.length / 4096 →
    interleave_loop fuel T buf ⟨data, false⟩ tgt = none := by
  intro fuel
  induction fuel with
  | zero => intro data T buf tgt _; exact interleave_loop_out_of_fuel T buf data tgt
  | succ f ih =>
    intro data T buf tgt hf
    rw [interleave_loop_step, decide_eq_false (by omega)]
    exact ih _ _ _ _ (by rw [List.length_drop]; omega)

theorem iterate_story (story tgt : List Byte) (buf0 : Buf) (k : Nat)
    (hk : k ≤ story.length / 4096) :
    Nat.iterate interleave_body k (0, buf0, fopen_rb story, tgt)
      = (u32 (4096 * k), buf_rec k buf0 story, ⟨story.drop (4096 * k), false⟩,
          tgt ++ payload_rec k buf0 story) := by
  have hL := Nat.div_add_mod story.length 4096
  have hmul : 4096 * k ≤ 4096 * (story.length / 4096) := Nat.mul_le_mul_left _ hk
  have := iterate_body k story 0 buf0 tgt (by norm_num) (by omega)
  rw [Nat.zero_add] at this
  exact this

theorem iterate_story_last (story tgt : List Byte) (buf0 : Buf) :
    feof (Nat.iterate interleave_body (story.length / 4096 + 1)
      (0, buf0, fopen_rb story, tgt)).2.2.1 = true := by
  have hL := Nat.div_add_mod story.length 4096
  have hm := Nat.mod_lt story.length (show 4096 > 0 by decide)
  rw [Function.iterate_succ_apply', iterate_story story tgt buf0 _ (Nat.le_refl _),
    interleave_body_run]
  simp only [feof, List.length_drop]
  exact decide_eq_true (by omega)

/-- C12: the interleaving loop terminates for every story file, after exactly
`floor(L / 4096) + 1` passes: the end-of-file indicator is clear before each of the
first `floor(L / 4096) + 1` passes and set after the last, so less fuel than that
runs out and any more returns the state after that many passes.  When `L` is a
multiple of 4096 the last pass starts with the input used up, its first chunk read
delivers zero bytes, it writes nothing, leaves `T` as it is and sets the indicator. -/
theorem C12_loop_pass_count (story tgt : List Byte) (buf0 : Buf) :
    (∀ k, k ≤ story.length / 4096 →
      feof (Nat.iterate interleave_body k (0, buf0, fopen_rb story, tgt)).2.2.1 = false) ∧
    feof (Nat.iterate interleave_body (story.length / 4096 + 1)
      (0, buf0, fopen_rb story, tgt)).2.2.1 = true ∧
    (∀ fuel, fuel ≤ story.length / 4096 →
      interleave_loop fuel 0 buf0 (fopen_rb story) tgt = none) ∧
    (∀ fuel, story.length / 4096 + 1 ≤ fuel →
      interleave_loop fuel 0 buf0 (fopen_rb story) tgt
        = some (Nat.iterate interleave_body (story.length / 4096 + 1)
            (0, buf0, fopen_rb story, tgt))) ∧
    (story.length % 4096 = 0 →
      (Nat.iterate interleave_body (story.length / 4096)
        (0, buf0, fopen_rb story, tgt)).2.2.1 = ⟨[], false⟩ ∧
      (fread 0x100 (Nat.iterate interleave_body (story.length / 4096)
        (0, buf0, fopen_rb story, tgt)).2.2.1).1 = [] ∧
      (Nat.iterate interleave_body (story.length / 4096 + 1)
          (0, buf0, fopen_rb story, tgt)).2.2.2
        = (Nat.iterate interleave_body (story.length / 4096)
            (0, buf0, fopen_rb story, tgt)).2.2.2 ∧
      (Nat.iterate interleave_body (story.length / 4096 + 1)
          (0, buf0, fopen_rb story, tgt)).1
        = (Nat.iterate interleave_body (story.length / 4096)
            (0, buf0, fopen_rb story, tgt)).1) := by
  have hfalse : ∀ k, k ≤ story.length / 4096 →
      feof (Nat.iterate interleave_body k (0, buf0, fopen_rb story, tgt)).2.2.1 = false := by
    intro k hk
    rw [iterate_story story tgt buf0 k hk]
    rfl
  have htrue := iterate_story_last story tgt buf0
  refine ⟨hfalse, htrue, ?_, ?_, ?_⟩
  · intro fuel hf
    exact interleave_loop_starved fuel story 0 buf0 tgt hf
  · intro fuel hf
    exact loop_eq_iterate (story.length / 4096 + 1) fuel (0, buf0, fopen_rb story, tgt)
      (fun j hj => hfalse j (by omega)) htrue hf
  · intro hm
    have hL := Nat.div_add_mod story.length 4096
    have hdrop : List.drop (4096 * (story.length / 4096)) story = [] :=
      List.drop_eq_nil_of_le (by omega)
    have hs := iterate_story story tgt buf0 _ (Nat.le_refl (story.length / 4096))
    rw [hdrop] at hs
    rw [Function.iterate_succ_apply', hs, interleave_body_run]
    refine ⟨rfl, rfl, ?_, ?_⟩
    · simp [group_out]
    · simp only [List.length_nil, Nat.min_zero, Nat.add_zero, u32]
      exact Nat.mod_mod _ _

/-- C14: the array is never cleared between groups.  For a story file with at least
one complete group before a final group of `m` bytes, `0 < m < 4096`, a byte of the
final group's written range (row `sect[i]`, column `c`, `sect[i]*256 + c < m`) that
no chunk of the final group overwrote (`m ≤ i*256 + c`) equals the byte at the same
group offset of the previous group's output; for `4096 + 300` input bytes the payload
bytes `4096+256 .. 4096+299` equal the payload bytes `256 .. 299`, which are bytes
`0 .. 43` of input chunk 7 of the first group. -/
theorem C14_final_group_repeats_previous_output (story tgt : List Byte) (buf0 : Buf)
    (i c : Nat) (hi : i < 16) (hc : c < 256) (hfull : 4096 ≤ story.length)
    (hw : sect.getD i 0 * 256 + c < story.length % 4096)
    (hu : story.length % 4096 ≤ i * 256 + c) :
    ∃ (T : Nat) (bufF : Buf) (srcF : RFile) (pay : List Byte),
      interleave_loop (story.length + 1) 0 buf0 (fopen_rb story) tgt
        = some (T, bufF, srcF, tgt ++ pay) ∧
      pay.length = story.length ∧
      (story.length / 4096 - 1) * 4096 + sect.getD i 0 * 256 + c < pay.length ∧
      pay[story.length / 4096 * 4096 + sect.getD i 0 * 256 + c]?
        = pay[(story.length / 4096 - 1) * 4096 + sect.getD i 0 * 256 + c]? ∧
      (story.length = 4096 + 300 → ∀ k, k < 44 →
        pay[4096 + 256 + k]? = pay[256 + k]? ∧ pay[256 + k]? = story[7 * 256 + k]?) := by
  have hL := Nat.div_add_mod story.length 4096
  have hG : story.length / 4096 ≠ 0 := by omega
  refine ⟨_, _, _, _, loop_run story tgt buf0, payload_length story buf0, ?_, ?_, ?_⟩
  · rw [payload_length]; omega
  · have h1 := payload_stale_get story buf0 i c hi hc hw hu
    have h2 := payload_full_get story buf0 (story.length / 4096 - 1) i c (by omega) hi hc
    rw [if_neg hG] at h1
    rw [h1, h2]
  · intro h4396 k hk
    have hs7 : sect.getD 7 0 = 1 := rfl
    have h1 := payload_stale_get story buf0 7 k (by decide) (by omega)
      (by rw [hs7]; omega) (by omega)
    have h2 := payload_full_get story buf0 0 7 k (by omega) (by decide) (by omega)
    have hG1 : story.length / 4096 = 1 := by omega
    rw [hs7, hG1, if_neg (by decide)] at h1
    rw [hs7, hG1] at h2
    rw [hG1]
    have e1 : 1 * 4096 + 1 * 256 + k = 4096 + 256 + k := by omega
    have e2 : (1 - 1) * 4096 + 7 * 256 + k = 7 * 256 + k := by omega
    have e3 : 0 * 4096 + 1 * 256 + k = 256 + k := by omega
    have e4 : 0 * 4096 + 7 * 256 + k = 7 * 256 + k := by omega
    rw [e1, e2] at h1
    rw [e3, e4] at h2
    exact ⟨by rw [h1, h2], h2⟩

/-- Witness for C14: in the stale-buffer example (4096 bytes, then 300 bytes) the byte
in row `sect[7] = 1`, column 0 of the final group repeats the first group's output. -/
theorem C14_final_group_repeats_previous_output_witness :
    ∃ (T : Nat) (bufF : Buf) (srcF : RFile) (pay : List Byte),
      interleave_loop (staleExample.length + 1) 0 (fun _ _ => 0) (fopen_rb staleExample) []
        = some (T, bufF, srcF, [] ++ pay) ∧
      pay.length = staleExample.length ∧
      (staleExample.length / 4096 - 1) * 4096 + sect.getD 7 0 * 256 + 0 < pay.length ∧
      pay[staleExample.length / 4096 * 4096 + sect.getD 7 0 * 256 + 0]?
        = pay[(staleExample.length / 4096 - 1) * 4096 + sect.getD 7 0 * 256 + 0]? ∧
      (staleExample.length = 4096 + 300 → ∀ k, k < 44 →
        pay[4096 + 256 + k]? = pay[256 + k]? ∧ pay[256 + k]? = staleExample[7 * 256 + k]?) :=
  C14_final_group_repeats_previous_output staleExample [] (fun _ _ => 0) 7 0
    (by decide) (by decide) (by rw [staleExample_length]; decide)
    (by rw [staleExample_length]; decide) (by rw [staleExample_length]; decide)

theorem payload_of_eq (story : List Byte) (buf0 : Buf) :
    payload_of story buf0 = some (payload_rec (story.length / 4096 + 1) buf0 story) := by
  simp only [payload_of, loop_run, List.nil_append]

/-- An input byte whose place in the array lies inside the written range is found in
the payload at that place. -/
theorem payload_written_get (data : List Byte) (buf : Buf) (k : Nat) (hk : k < data.length)
    (hw : k / 4096 * 4096 + sect.getD (k % 4096 / 256) 0 * 256 + k % 256 < data.length) :
    (payload_rec (data.length / 4096 + 1) buf data)[
        k / 4096 * 4096 + sect.getD (k % 4096 / 256) 0 * 256 + k % 256]? = data[k]? := by
  have hi : k % 4096 / 256 < 16 := by omega
  have hs := sect_lt _ hi
  have e1 : (k / 4096 * 4096 + sect.getD (k % 4096 / 256) 0 * 256 + k % 256) / 4096
      = k / 4096 := by omega
  have e2 : (k / 4096 * 4096 + sect.getD (k % 4096 / 256) 0 * 256 + k % 256) % 4096 / 256
      = sect.getD (k % 4096 / 256) 0 := by omega
  have e3 : (k / 4096 * 4096 + sect.getD (k % 4096 / 256) 0 * 256 + k % 256) % 256
      = k % 256 := by omega
  have e4 : k / 4096 * 4096 + k % 4096 / 256 * 256 + k % 256 = k := by omega
  rw [payload_get _ _ _ hw, e1, e2, e3, Pinv_sect _ hi, e4, if_pos hk]

theorem sect_lt_15 : ∀ i, i < 15 → sect.getD i 0 < 15 := by decide

/-- For `m ≤ 256` or `m ≥ 3840` every input byte has its place inside the written range. -/
theorem lossless_written (L k : Nat) (hm : L % 4096 ≤ 256 ∨ 3840 ≤ L % 4096) (hk : k < L) :
    k / 4096 * 4096 + sect.getD (k % 4096 / 256) 0 * 256 + k % 256 < L := by
  have hL := Nat.div_add_mod L 4096
  have hi : k % 4096 / 256 < 16 := by omega
  have hs := sect_lt _ hi
  by_cases hg : k / 4096 < L / 4096
  · omega
  · have hgG : k / 4096 = L / 4096 := by omega
    rcases hm with hm | hm
    · have h0 : k % 4096 / 256 = 0 := by omega
      have hs0 : sect.getD (k % 4096 / 256) 0 = 0 := by rw [h0]; rfl
      omega
    · by_cases h15 : k % 4096 / 256 = 15
      · have hs15 : sect.getD (k % 4096 / 256) 0 = 15 := by rw [h15]; rfl
        omega
      · have := sect_lt_15 _ (show k % 4096 / 256 < 15 by omega)
        omega

theorem payload_injective (s1 s2 : List Byte) (buf0 : Buf) (hlen : s1.length = s2.length)
    (hm : s1.length % 4096 ≤ 256 ∨ 3840 ≤ s1.length % 4096)
    (hpay : payload_rec (s1.length / 4096 + 1) buf0 s1
      = payload_rec (s2.length / 4096 + 1) buf0 s2) : s1 = s2 := by
  apply List.ext_getElem?
  intro k
  by_cases hk : k < s1.length
  · have hw := lossless_written s1.length k hm hk
    have h1 := payload_written_get s1 buf0 k hk hw
    have h2 := payload_written_get s2 buf0 k (by omega) (by omega)
    rw [← h1, ← h2, hpay]
  · rw [List.getElem?_eq_none (by omega), List.getElem?_eq_none (by omega)]

/-- An input byte of the final group whose place in the array lies outside the
written range has no influence on the payload. -/
theorem payload_blind_to_index (s1 s2 : List Byte) (buf0 : Buf) (i c : Nat)
    (hlen : s1.length = s2.length) (hi : i < 16) (hc : c < 256)
    (hout : s1.length % 4096 ≤ sect.getD i 0 * 256 + c)
    (hagree : ∀ k, k ≠ s1.length / 4096 * 4096 + i * 256 + c → s1[k]? = s2[k]?) :
    payload_rec (s1.length / 4096 + 1) buf0 s1 = payload_rec (s2.length / 4096 + 1) buf0 s2 := by
  have hL := Nat.div_add_mod s1.length 4096
  rw [← hlen]
  apply List.ext_getElem?
  intro j
  by_cases hj : j < s1.length
  · have h1 := payload_get s1 buf0 j hj
    have h2 := payload_get s2 buf0 j (by omega)
    rw [← hlen] at h2
    rw [h1, h2]
    have hr : j % 4096 / 256 < 16 := by omega
    have hp := Pinv_lt _ hr
    have hsp := sect_Pinv _ hr
    by_cases hcond : j / 4096 * 4096 + Pinv.getD (j % 4096 / 256) 0 * 256 + j % 256 < s1.length
    · simp only [if_pos hcond]
      apply hagree
      intro e
      have hpi : Pinv.getD (j % 4096 / 256) 0 = i := by omega
      rw [hpi] at hsp
      omega
    · simp only [if_neg hcond]
      by_cases hz : j / 4096 = 0
      · simp only [if_pos hz]
      · simp only [if_neg hz]
        apply hagree
        omega
  · rw [List.getElem?_eq_none (by rw [payload_length]; omega),
      List.getElem?_eq_none (by rw [hlen, payload_length]; omega)]

/-- For `256 < m < 3840` some input byte of the final group has its place outside
the written range. -/
theorem lossy_index (m : Nat) (h1 : 256 < m) (h2 : m < 3840) :
    ∃ i c, i < 16 ∧ c < 256 ∧ i * 256 + c < m ∧ m ≤ sect.getD i 0 * 256 + c := by
  have hs1 : sect.getD 1 0 = 13 := rfl
  have hs8 : sect.getD 8 0 = 14 := rfl
  by_cases ha : m ≤ 3328
  · exact ⟨1, 0, by decide, by decide, by omega, by rw [hs1]; omega⟩
  · by_cases hb : m < 3584
    · exact ⟨1, 255, by decide, by decide, by omega, by rw [hs1]; omega⟩
    · exact ⟨8, 255, by decide, by decide, by omega, by rw [hs8]; omega⟩

/-- C15: with `m = L mod 4096`, the interleaving loop loses no input byte exactly when
`m ≤ 256` or `m ≥ 3840`.  For every length `L` and every initial array content the
payload exists and has `L` bytes, and the map from story files of length `L` to their
payload is injective if and only if `L mod 4096 ≤ 256` or `L mod 4096 ≥ 3840`; for every
other length some input byte of the final group (chunk `i`, column `c`) is placed in a
row outside the written range and no change of it changes the payload. -/
theorem C15_lossless_lengths (L : Nat) (buf0 : Buf) :
    (∀ s : List Byte, s.length = L →
      ∃ pay : List Byte, payload_of s buf0 = some pay ∧ pay.length = L) ∧
    ((∀ s1 s2 : List Byte, s1.length = L → s2.length = L →
        payload_of s1 buf0 = payload_of s2 buf0 → s1 = s2)
      ↔ (L % 4096 ≤ 256 ∨ 3840 ≤ L % 4096)) ∧
    (¬ (L % 4096 ≤ 256 ∨ 3840 ≤ L % 4096) →
      ∃ i c, i < 16 ∧ c < 256 ∧ i * 256 + c < L % 4096 ∧
        L % 4096 ≤ sect.getD i 0 * 256 + c ∧
        ∀ s1 s2 : List Byte, s1.length = L → s2.length = L →
          (∀ k, k ≠ L / 4096 * 4096 + i * 256 + c → s1[k]? = s2[k]?) →
          payload_of s1 buf0 = payload_of s2 buf0) := by
  have hL := Nat.div_add_mod L 4096
  have hlossy : ¬ (L % 4096 ≤ 256 ∨ 3840 ≤ L % 4096) →
      ∃ i c, i < 16 ∧ c < 256 ∧ i * 256 + c < L % 4096 ∧
        L % 4096 ≤ sect.getD i 0 * 256 + c ∧
        ∀ s1 s2 : List Byte, s1.length = L → s2.length = L →
          (∀ k, k ≠ L / 4096 * 4096 + i * 256 + c → s1[k]? = s2[k]?) →
          payload_of s1 buf0 = payload_of s2 buf0 := by
    intro hm
    obtain ⟨i, c, hi, hc, hin, hout⟩ := lossy_index (L % 4096) (by omega) (by omega)
    refine ⟨i, c, hi, hc, hin, hout, ?_⟩
    intro s1 s2 h1 h2 hagree
    rw [payload_of_eq, payload_of_eq]
    have := payload_blind_to_index s1 s2 buf0 i c (by omega) hi hc (by rw [h1]; exact hout)
      (by rw [h1]; exact hagree)
    rw [this]
  refine ⟨?_, ⟨?_, ?_⟩, hlossy⟩
  · intro s hs
    refine ⟨_, payload_of_eq s buf0, ?_⟩
    rw [payload_length, hs]
  · intro hinj
    by_contra hm
    obtain ⟨i, c, hi, hc, hin, hout, hblind⟩ := hlossy hm
    have hk0 : L / 4096 * 4096 + i * 256 + c < L := by omega
    have hs1 : (List.replicate L (0 : Byte)).length = L := List.length_replicate _ _
    have hs2 : ((List.replicate L (0 : Byte)).set (L / 4096 * 4096 + i * 256 + c) 1).length = L := by
      rw [List.length_set, List.length_replicate]
    have heq := hinj _ _ hs1 hs2
      (hblind _ _ hs1 hs2 (fun k hk => (List.getElem?_set_ne (Ne.symm hk)).symm))
    have h0 := congrArg (fun l => l[L / 4096 * 4096 + i * 256 + c]?) heq
    simp only [List.getElem?_set_self (by rw [hs1]; exact hk0),
      List.getElem?_replicate_of_lt hk0] at h0
    exact absurd h0 (by decide)
  · intro hm s1 s2 h1 h2 hpay
    rw [payload_of_eq, payload_of_eq] at hpay
    exact payload_injective s1 s2 buf0 (by omega) (by rw [h1]; exact hm)
      (Option.some.inj hpay)

end Interlz3
